import Mathlib

set_option linter.unusedVariables false

/-!
Shallow embedding of the request/pool module `src/xhr.js`: the header-block
helper `parseHeaders`, the `xhrRequest` lifecycle wrapper over an
XMLHttpRequest-style transport, and the bounded-concurrency scheduler
`XHRPool`.  JS strings are modelled as `String`/`List Char`, JS numbers as
`Int`/`Nat`, promises as explicit settlement records, and the event-driven
callbacks as a step function over an explicit event trace.
-/

/- ===================== XHRPool (lines 95-135 of xhr.js) ===================== -/

/-- Settlement of one submission's completion token: the payload handed to the
pool job's `resolve` or `reject` continuation (payloads abstracted to `Nat`). -/
inductive Settlement where
  | resolved (v : Nat)
  | rejected (v : Nat)
deriving DecidableEq, Repr

/-- A queued pool job, as pushed by `XHRPool.enqueue`.  `id` identifies the
submission; `throwsWith = some v` models a `createTaskFn` that throws the
value `v` synchronously when invoked, `none` one that returns a task promise. -/
structure Job where
  id : Nat
  throwsWith : Option Nat
deriving DecidableEq, Repr

/-- State of an `XHRPool`.  `concurrency`, `active` and `queue` are the
constructor's fields; the remaining fields record the observable history:
`running` holds the ids of started tasks whose promise has not settled yet,
`started` the ids in order of factory invocation (admission order), and
`settled` the settlements forwarded to caller-visible completion tokens. -/
@[ext] structure PoolState where
  concurrency : Int
  active : Int
  queue : List Job
  running : List Nat
  started : List Nat
  settled : List (Nat × Settlement)
deriving DecidableEq, Repr

/-- `new XHRPool(concurrency)`: the limit is stored unvalidated,
`active = 0`, `queue = []`. -/
def initPool (n : Int) : PoolState :=
  { concurrency := n, active := 0, queue := [], running := [], started := [],
    settled := [] }

/-- One invocation of `XHRPool._next`, with explicit fuel for the recursion in
the synchronous-throw branch.  Each recursive call in the source follows a
`queue.shift()`, so `queue.length` fuel is exact.  The branches mirror the
source: return when `active >= concurrency`; return when the queue is empty;
otherwise `active++`, invoke the factory; on a synchronous throw, `active--`,
`reject(err)` and recurse; otherwise the task runs (its settlement is a later
event). -/
def poolNextFuel : Nat → PoolState → PoolState
  | 0, s => s
  | f + 1, s =>
    if s.concurrency ≤ s.active then s
    else
      match s.queue with
      | [] => s
      | j :: rest =>
        match j.throwsWith with
        | some v =>
          poolNextFuel f
            { s with queue := rest, started := s.started ++ [j.id],
                     settled := s.settled ++ [(j.id, Settlement.rejected v)] }
        | none =>
          { s with queue := rest, active := s.active + 1,
                   started := s.started ++ [j.id],
                   running := s.running ++ [j.id] }

/-- `XHRPool._next()` on a pool state. -/
def poolNext (s : PoolState) : PoolState := poolNextFuel s.queue.length s

/-- External events driving a pool: `enqueue j` is a call to
`XHRPool.enqueue`, `settle i out` is the `.then`/`.catch` callback of the
running task `i` firing with the given outcome. -/
inductive PoolEvent where
  | enqueue (j : Job)
  | settle (i : Nat) (out : Settlement)
deriving DecidableEq, Repr

/-- One pool event.  `enqueue` pushes the job and calls `_next()`.  A
settlement callback (attached only to started promises, hence the `running`
guard) does `active--`, forwards the outcome to the submission's completion
token, and calls `_next()`. -/
def poolStep (s : PoolState) (e : PoolEvent) : PoolState :=
  match e with
  | .enqueue j => poolNext { s with queue := s.queue ++ [j] }
  | .settle i out =>
    if i ∈ s.running then
      poolNext
        { s with running := s.running.erase i, active := s.active - 1,
                 settled := s.settled ++ [(i, out)] }
    else s

/-- A pool constructed with limit `n`, run over an event sequence. -/
def runPool (n : Int) (es : List PoolEvent) : PoolState :=
  es.foldl poolStep (initPool n)

/-- The jobs submitted by an event sequence, in submission order. -/
def enqJobsOf (es : List PoolEvent) : List Job :=
  es.filterMap (fun e => match e with
    | .enqueue j => some j
    | .settle _ _ => none)

/-- The ids submitted by an event sequence, in submission order. -/
def enqIdsOf (es : List PoolEvent) : List Nat := (enqJobsOf es).map Job.id

/-- `m` non-throwing jobs with ids `0, 1, ..., m-1`. -/
def mkJobs (m : Nat) : List Job :=
  (List.range m).map (fun i => { id := i, throwsWith := none })

/- ===================== parseHeaders (lines 8-19 of xhr.js) ================ -/

/-- Whitespace for the JS `String.prototype.trim` (space classes and line
terminators; exotic Unicode space separators are not modelled). -/
def jsWhitespace (c : Char) : Bool :=
  c = ' ' || c = '\t' || c = '\n' || c = '\r' || c = '\x0b' || c = '\x0c' ||
    c = '\u00A0' || c = '\uFEFF' || c = '\u2028' || c = '\u2029'

/-- JS `str.trim()` on a character list. -/
def jsTrim (l : List Char) : List Char :=
  ((l.dropWhile jsWhitespace).reverse.dropWhile jsWhitespace).reverse

/-- The character class of the split regex in `parseHeaders`: CR or LF. -/
def isNl (c : Char) : Bool := c = '\r' || c = '\n'

/-- Split at every single CR/LF character (JS `split` against a single
newline character, no run collapsing). -/
def splitOnNl : List Char → List (List Char)
  | [] => [[]]
  | c :: rest =>
    if isNl c then [] :: splitOnNl rest
    else
      match splitOnNl rest with
      | [] => [[c]]
      | p :: ps => (c :: p) :: ps

/-- Drop the empty pieces a single-character split produces between adjacent
separator characters, keeping a final empty piece (which stems from a
trailing separator, not from a run). -/
def dropEmptyRuns : List (List Char) → List (List Char)
  | [] => []
  | [x] => [x]
  | x :: y :: ys =>
    if x = [] then dropEmptyRuns (y :: ys) else x :: dropEmptyRuns (y :: ys)

/-- JS `str.split(regex)` for the regex one-or-more-CR-or-LF: pieces between
maximal newline runs, keeping empty first/last pieces for leading/trailing
newlines. -/
def splitNlRuns (l : List Char) : List (List Char) :=
  match splitOnNl l with
  | [] => []
  | x :: xs => x :: dropEmptyRuns xs

/-- JS `line.split(': ')`: split at every occurrence of the two-character
separator, scanning left to right. -/
def splitSepCS : List Char → List (List Char)
  | [] => [[]]
  | [c] => [[c]]
  | c :: d :: rest =>
    if c = ':' ∧ d = ' ' then [] :: splitSepCS rest
    else
      match splitSepCS (d :: rest) with
      | [] => [[c]]
      | p :: ps => (c :: p) :: ps

/-- JS `parts.join(': ')`. -/
def joinSep : List (List Char) → List Char
  | [] => []
  | [x] => x
  | x :: y :: ys => x ++ ':' :: ' ' :: joinSep (y :: ys)

/-- Split a line at the first occurrence of the `": "` separator: the text
before it, and (when the separator occurs) the text after it. -/
def splitFirstSep : List Char → List Char × Option (List Char)
  | [] => ([], none)
  | [c] => ([c], none)
  | c :: d :: rest =>
    if c = ':' ∧ d = ' ' then ([], some rest)
    else
      let r := splitFirstSep (d :: rest)
      (c :: r.1, r.2)

/-- JS `String.prototype.toLowerCase` restricted to the ASCII range (header
names in scope are ASCII). -/
def asciiLower (l : List Char) : List Char :=
  l.map (fun c => if 'A' ≤ c ∧ c ≤ 'Z' then Char.ofNat (c.toNat + 32) else c)

/-- `asciiLower` on a `String`. -/
def asciiLowerS (s : String) : String := String.mk (asciiLower s.data)

/-- JS object assignment `m[k] = v`: overwrite in place if the key exists,
append otherwise (insertion order preserved, last write wins). -/
def recordSet (m : List (String × String)) (k v : String) :
    List (String × String) :=
  if m.any (fun p => p.1 = k) then
    m.map (fun p => if p.1 = k then (k, v) else p)
  else m ++ [(k, v)]

/-- `parseHeaders` from the source: empty/missing block gives an empty map;
otherwise trim, split on newline runs, split each line on `": "`, shift the
first part as the key, rejoin the rest as the value, lower-case the key. -/
def parseHeaders (headerStr : String) : List (String × String) :=
  if headerStr = "" then []
  else
    (splitNlRuns (jsTrim headerStr.data)).foldl
      (fun m line =>
        let parts := splitSepCS line
        let key := parts.headD []
        let value := joinSep parts.tail
        recordSet m (String.mk (asciiLower key)) (String.mk value)) []

/-- Modelled from the amended specification wording: trim surrounding
whitespace, split the block on maximal CR/LF runs, split each line at the
first `": "` occurrence into name and value (empty value when absent),
lower-case names, insert last-write-wins. -/
def parseHeadersAmended (headerStr : String) : List (String × String) :=
  if headerStr = "" then []
  else
    (splitNlRuns (jsTrim headerStr.data)).foldl
      (fun m line =>
        let r := splitFirstSep line
        recordSet m (String.mk (asciiLower r.1)) (String.mk (r.2.getD []))) []

/-- Modelled from the claim wording taken literally: split the raw block on
newlines (no trimming, no run collapsing), split each line at the first
`": "` occurrence, lower-case names. -/
def parseHeadersLiteral (headerStr : String) : List (String × String) :=
  if headerStr = "" then []
  else
    (splitOnNl headerStr.data).foldl
      (fun m line =>
        let r := splitFirstSep line
        recordSet m (String.mk (asciiLower r.1)) (String.mk (r.2.getD []))) []

/- ============== request body serialization (lines 81-87 of xhr.js) ======== -/

/-- A JS request body: `null`, a string, or a non-null structured (object)
value, abstracted by a tag. -/
inductive JsBody where
  | nullB
  | strB (s : String)
  | objB (tag : Nat)
deriving DecidableEq, Repr

/-- What `xhr.send` receives: the body as given, or its JSON serialization. -/
inductive Payload where
  | raw (b : JsBody)
  | jsonOf (b : JsBody)
deriving DecidableEq, Repr

/-- JS `body != null && typeof body === 'object'`. -/
def isObjB : JsBody → Bool
  | .objB _ => true
  | _ => false

/-- JS object property read `m[k]` for an exact key. -/
def jsLookup (m : List (String × String)) (k : String) : Option String :=
  (m.find? (fun p => p.1 = k)).map (fun p => p.2)

/-- JS `a || d` where `a` is a possibly-missing string. -/
def jsOrStr : Option String → String → String
  | some s, d => if s = "" then d else s
  | none, d => d

/-- Whether `pat` occurs at the start of `hay`. -/
def startsWithCS : List Char → List Char → Bool
  | _, [] => true
  | [], _ :: _ => false
  | a :: as, b :: bs => a = b && startsWithCS as bs

/-- JS `hay.includes(pat)`. -/
def hasInfixCS : List Char → List Char → Bool
  | [], pat => startsWithCS [] pat
  | c :: t, pat => startsWithCS (c :: t) pat || hasInfixCS t pat

/-- The content-type string the source inspects:
`(headers['Content-Type'] || headers['content-type'] || '').toLowerCase()`. -/
def contentTypeOf (hs : List (String × String)) : String :=
  asciiLowerS (jsOrStr (jsLookup hs "Content-Type")
    (jsOrStr (jsLookup hs "content-type") ""))

/-- The payload the source passes to `xhr.send`: serialize if and only if the
body is a non-null object and the inspected content-type contains
`application/json`. -/
def sentPayload (hs : List (String × String)) (b : JsBody) : Payload :=
  if isObjB b && hasInfixCS (contentTypeOf hs).data "application/json".data
  then Payload.jsonOf b
  else Payload.raw b

/-- Modelled from the claim wording: the headers mapping contains, under the
key `content-type` compared case-insensitively, a value declaring the JSON
media type. -/
def specContentTypeJson (hs : List (String × String)) (b : JsBody) : Bool :=
  isObjB b && hs.any (fun p => asciiLowerS p.1 = "content-type" &&
    hasInfixCS (asciiLowerS p.2).data "application/json".data)

/- ================ xhrRequest state machine (lines 21-93 of xhr.js) ======== -/

/-- `xhr.responseType` handed to the transport during setup: set verbatim for
a non-empty, non-json requested kind, left at the empty default otherwise. -/
def xhrRespType (responseType : String) : String :=
  if responseType ≠ "" ∧ responseType ≠ "json" then responseType else ""

/-- The decoded response body (success branch of the terminal handler). -/
inductive BodyVal where
  | nativeVal (v : List Char)
  | decodedJson (v : List Char)
  | rawText (t : List Char)
deriving DecidableEq, Repr

/-- The body-decoding branch of the terminal handler, with `JSON.parse`
abstracted as `jp` (`none` models a parse exception, caught in the source by
falling back to the raw text):
`xhr.responseType === 'json'` gives `xhr.response`; the requested json kind
parses `responseText || 'null'`; anything else uses
`xhr.response || xhr.responseText`. -/
def computeBody (jp : List Char → Option (List Char)) (optRT xhrRT : String)
    (respText respVal : List Char) : BodyVal :=
  if xhrRT = "json" then BodyVal.nativeVal respVal
  else if optRT = "json" then
    match jp (if respText = [] then "null".data else respText) with
    | some v => BodyVal.decodedJson v
    | none => BodyVal.rawText respText
  else if respVal ≠ [] then BodyVal.nativeVal respVal
  else BodyVal.rawText respText

/-- The value a successful request resolves with: status, parsed (lower-cased)
headers, decoded body, and the raw transport handle (modelled as `Unit`). -/
structure ResponseEnvelope where
  status : Int
  headers : List (String × String)
  body : BodyVal
  xhr : Unit
deriving DecidableEq, Repr

/-- The value a non-2xx request rejects with: status, status text, raw
undecoded body, parsed headers — and no transport handle field. -/
structure FailureEnvelope where
  status : Int
  statusText : String
  body : List Char
  headers : List (String × String)
deriving DecidableEq, Repr

/-- The state of the completion token: unsettled, resolved with a
`ResponseEnvelope`, rejected with a `FailureEnvelope`, or rejected with a
plain descriptive error (transport-level failures). -/
inductive Outcome where
  | pending
  | resolvedEnv (e : ResponseEnvelope)
  | rejectedEnv (e : FailureEnvelope)
  | rejectedErr (msg : String)
deriving DecidableEq, Repr

/-- The destructured options of `xhrRequest`, with the source's defaults.
`onChunk = some cb` registers a chunk callback; `cb chunk = true` means the
callback throws on that invocation. -/
structure ReqOptions where
  method : String := "GET"
  url : String := ""
  headers : List (String × String) := []
  body : JsBody := JsBody.nullB
  timeout : Int := 30000
  withCredentials : Bool := false
  responseType : String := "json"
  onProgress : Bool := false
  onChunk : Option (List Char → Bool) := none

/-- Transport events observed by the handlers `xhrRequest` registers:
`loading cum` is a readystatechange at readyState 3 with cumulative response
text `cum`; `done` is readyState 4 carrying final status, status text,
response text, native decoded response value, and the raw header block;
the last three are the `onerror`, `ontimeout` and `onabort` notifications. -/
inductive XhrEvent where
  | loading (cum : List Char)
  | progressEvt
  | done (status : Int) (statusText : String) (respText : List Char)
      (respVal : List Char) (rawHeaders : String)
  | netError
  | timedOut
  | aborted

/-- Handler-visible state of one request: the `lastIndex` streaming cursor,
the completion token's outcome, and the chunk-callback invocation log. -/
@[ext] structure ReqState where
  lastIndex : Nat
  outcome : Outcome
  deliveries : List (List Char)
deriving DecidableEq, Repr

/-- State before any transport event. -/
def initReq : ReqState :=
  { lastIndex := 0, outcome := Outcome.pending, deliveries := [] }

/-- Settle the promise: the first `resolve`/`reject` wins, later ones are
no-ops. -/
def settleOutcome (s : ReqState) (o : Outcome) : ReqState :=
  if s.outcome = Outcome.pending then { s with outcome := o } else s

/-- The call `onChunk(chunk)`: `error` when the callback throws. -/
def chunkCall (cb : List Char → Bool) (c : List Char) : Except Unit Unit :=
  if cb c then Except.error () else Except.ok ()

/-- One transport event through the handlers of `xhrRequest`.  At readyState
3 with a registered callback, the newly-arrived substring past `lastIndex`
is computed, `lastIndex` advances, and the callback is invoked inside
`try ... catch (e) {}` — both the normal and the throwing return leave the
handler state the same, which is the swallowing `catch`.  At readyState 4
the handler branches on the status; the failure notifications reject with
distinct plain errors. -/
def reqStep (o : ReqOptions) (jp : List Char → Option (List Char))
    (s : ReqState) : XhrEvent → ReqState
  | .loading cum =>
    match o.onChunk with
    | none => s
    | some cb =>
      let chunk := cum.drop s.lastIndex
      let s1 : ReqState :=
        { s with lastIndex := cum.length,
                 deliveries := s.deliveries ++ [chunk] }
      match chunkCall cb chunk with
      | .ok _ => s1
      | .error _ => s1
  | .progressEvt => s
  | .done st stx txt rval hdrs =>
    settleOutcome s
      (if 200 ≤ st ∧ st < 300 then
        Outcome.resolvedEnv
          { status := st, headers := parseHeaders hdrs,
            body := computeBody jp o.responseType (xhrRespType o.responseType)
              txt rval,
            xhr := () }
      else
        Outcome.rejectedEnv
          { status := st, statusText := stx, body := txt,
            headers := parseHeaders hdrs })
  | .netError => settleOutcome s (Outcome.rejectedErr "Network error")
  | .timedOut => settleOutcome s (Outcome.rejectedErr "Timeout")
  | .aborted => settleOutcome s (Outcome.rejectedErr "Aborted")

/-- A request with options `o`, run over a transport event trace. -/
def runXhr (o : ReqOptions) (jp : List Char → Option (List Char))
    (evs : List XhrEvent) : ReqState :=
  evs.foldl (reqStep o jp) initReq

/-- The chunk increments for notification texts `ts` starting from offset
`n`: each notification delivers the substring past the previous cumulative
length. -/
def incrementsFrom : Nat → List (List Char) → List (List Char)
  | _, [] => []
  | n, t :: ts => t.drop n :: incrementsFrom t.length ts

/-- The last cumulative text of a notification sequence (empty when none). -/
def lastCum : List (List Char) → List Char
  | [] => []
  | [t] => t
  | _ :: t :: ts => lastCum (t :: ts)

/-- Each cumulative text is a prefix of the next. -/
def pfxChain : List (List Char) → Bool
  | [] => true
  | [_] => true
  | a :: b :: r => startsWithCS b a && pfxChain (b :: r)

/- ------------------- pool lemmas ------------------- -/

lemma poolNextFuel_of_full (f : Nat) (s : PoolState)
    (h : s.concurrency ≤ s.active) : poolNextFuel f s = s := by
  cases f with
  | zero => rfl
  | succ f => simp [poolNextFuel, h]

lemma poolNext_of_full (s : PoolState) (h : s.concurrency ≤ s.active) :
    poolNext s = s := poolNextFuel_of_full _ s h

lemma poolNextFuel_succ_nil (f : Nat) (s : PoolState)
    (h : ¬ s.concurrency ≤ s.active) (hq : s.queue = []) :
    poolNextFuel (f + 1) s = s := by
  simp only [poolNextFuel, if_neg h, hq]

lemma poolNextFuel_succ_throw (f : Nat) (s : PoolState) (j : Job)
    (rest : List Job) (v : Nat) (h : ¬ s.concurrency ≤ s.active)
    (hq : s.queue = j :: rest) (hj : j.throwsWith = some v) :
    poolNextFuel (f + 1) s = poolNextFuel f
      { s with queue := rest, started := s.started ++ [j.id],
               settled := s.settled ++ [(j.id, Settlement.rejected v)] } := by
  simp only [poolNextFuel, if_neg h, hq, hj]

lemma poolNextFuel_succ_run (f : Nat) (s : PoolState) (j : Job)
    (rest : List Job) (h : ¬ s.concurrency ≤ s.active)
    (hq : s.queue = j :: rest) (hj : j.throwsWith = none) :
    poolNextFuel (f + 1) s =
      { s with queue := rest, active := s.active + 1,
               started := s.started ++ [j.id],
               running := s.running ++ [j.id] } := by
  simp only [poolNextFuel, if_neg h, hq, hj]

lemma poolNextFuel_concurrency (f : Nat) : ∀ s : PoolState,
    (poolNextFuel f s).concurrency = s.concurrency := by
  induction f with
  | zero => intro s; rfl
  | succ f ih =>
    intro s
    by_cases h : s.concurrency ≤ s.active
    · rw [poolNextFuel_of_full _ _ h]
    · rcases hq : s.queue with _ | ⟨j, rest⟩
      · rw [poolNextFuel_succ_nil f s h hq]
      · rcases hj : j.throwsWith with _ | v
        · rw [poolNextFuel_succ_run f s j rest h hq hj]
        · rw [poolNextFuel_succ_throw f s j rest v h hq hj, ih]

lemma poolStep_concurrency (s : PoolState) (e : PoolEvent) :
    (poolStep s e).concurrency = s.concurrency := by
  cases e with
  | enqueue j => simp [poolStep, poolNext, poolNextFuel_concurrency]
  | settle i out =>
    by_cases h : i ∈ s.running <;>
      simp [poolStep, h, poolNext, poolNextFuel_concurrency]

/-- The pool invariant: `active` counts the running tasks and never exceeds
the configured limit. -/
def PoolInv (s : PoolState) : Prop :=
  s.active = (s.running.length : Int) ∧ s.active ≤ s.concurrency

lemma poolNextFuel_inv (f : Nat) : ∀ s : PoolState,
    PoolInv s → PoolInv (poolNextFuel f s) := by
  induction f with
  | zero => intro s h; exact h
  | succ f ih =>
    intro s h
    by_cases hfull : s.concurrency ≤ s.active
    · rwa [poolNextFuel_of_full _ _ hfull]
    · obtain ⟨h1, h2⟩ := h
      rcases hq : s.queue with _ | ⟨j, rest⟩
      · rw [poolNextFuel_succ_nil f s hfull hq]; exact ⟨h1, h2⟩
      · rcases hj : j.throwsWith with _ | v
        · rw [poolNextFuel_succ_run f s j rest hfull hq hj]
          constructor
          · show s.active + 1 = ((s.running ++ [j.id]).length : Int)
            simp only [List.length_append, List.length_cons, List.length_nil]
            push_cast
            omega
          · show s.active + 1 ≤ s.concurrency
            omega
        · rw [poolNextFuel_succ_throw f s j rest v hfull hq hj]
          exact ih _ ⟨h1, h2⟩

lemma poolStep_inv (s : PoolState) (e : PoolEvent) (h : PoolInv s) :
    PoolInv (poolStep s e) := by
  cases e with
  | enqueue j =>
    apply poolNextFuel_inv
    exact ⟨h.1, h.2⟩
  | settle i out =>
    obtain ⟨h1, h2⟩ := h
    by_cases hm : i ∈ s.running
    · simp only [poolStep, if_pos hm]
      apply poolNextFuel_inv
      have hlen : (s.running.erase i).length = s.running.length - 1 :=
        List.length_erase_of_mem hm
      have hpos : 1 ≤ s.running.length := List.length_pos.mpr
        (List.ne_nil_of_mem hm)
      constructor
      · show s.active - 1 = ((s.running.erase i).length : Int)
        rw [hlen]
        push_cast [hpos]
        omega
      · show s.active - 1 ≤ s.concurrency
        omega
    · simpa [poolStep, hm] using ⟨h1, h2⟩

lemma foldl_poolStep_inv (es : List PoolEvent) : ∀ s : PoolState,
    PoolInv s → PoolInv (es.foldl poolStep s) := by
  induction es with
  | nil => intro s h; exact h
  | cons e es ih =>
    intro s h
    exact ih _ (poolStep_inv s e h)

lemma foldl_poolStep_concurrency (es : List PoolEvent) : ∀ s : PoolState,
    (es.foldl poolStep s).concurrency = s.concurrency := by
  induction es with
  | nil => intro s; rfl
  | cons e es ih =>
    intro s
    rw [List.foldl_cons, ih, poolStep_concurrency]

lemma runPool_inv (n : Int) (hn : 0 ≤ n) (es : List PoolEvent) :
    PoolInv (runPool n es) := by
  apply foldl_poolStep_inv
  exact ⟨by simp [initPool], by simpa [initPool] using hn⟩

lemma runPool_concurrency (n : Int) (es : List PoolEvent) :
    (runPool n es).concurrency = n := by
  unfold runPool
  rw [foldl_poolStep_concurrency]
  rfl

/-- C1: in a pool with positive limit `n`, for every event sequence the
active count never exceeds `n`, and a dispatch attempt (`_next`) made while
`active >= concurrency` removes nothing from the queue (it returns the state
unchanged), i.e. a job is dequeued only when `active < concurrency` at that
attempt. -/
theorem pool_active_never_exceeds_limit (n : Int) (hn : 1 ≤ n)
    (es : List PoolEvent) (s : PoolState) (hs : s.concurrency ≤ s.active) :
    (runPool n es).active ≤ n ∧ poolNext s = s := by
  constructor
  · have h := (runPool_inv n (by omega) es).2
    rwa [runPool_concurrency] at h
  · exact poolNext_of_full s hs

/-- Witness for C1 at a concrete pool and trace. -/
theorem pool_active_never_exceeds_limit_witness :
    (1 : Int) ≤ 2 ∧
    ({ concurrency := 1, active := 1, queue := [{ id := 5, throwsWith := none }],
       running := [3], started := [3], settled := [] } : PoolState).concurrency ≤
      ({ concurrency := 1, active := 1, queue := [{ id := 5, throwsWith := none }],
         running := [3], started := [3], settled := [] } : PoolState).active ∧
    ((runPool 2 [PoolEvent.enqueue { id := 0, throwsWith := none },
                 PoolEvent.enqueue { id := 1, throwsWith := none },
                 PoolEvent.enqueue { id := 2, throwsWith := none },
                 PoolEvent.settle 0 (Settlement.resolved 7)]).active ≤ 2 ∧
      poolNext { concurrency := 1, active := 1,
                 queue := [{ id := 5, throwsWith := none }],
                 running := [3], started := [3], settled := [] } =
        { concurrency := 1, active := 1,
          queue := [{ id := 5, throwsWith := none }],
          running := [3], started := [3], settled := [] }) :=
  ⟨by decide, by decide,
    pool_active_never_exceeds_limit 2 (by decide)
      [PoolEvent.enqueue { id := 0, throwsWith := none },
       PoolEvent.enqueue { id := 1, throwsWith := none },
       PoolEvent.enqueue { id := 2, throwsWith := none },
       PoolEvent.settle 0 (Settlement.resolved 7)]
      { concurrency := 1, active := 1,
        queue := [{ id := 5, throwsWith := none }],
        running := [3], started := [3], settled := [] }
      (by decide)⟩

lemma foldl_poolStep_stuck (n : Int) (hn : n ≤ 0) :
    ∀ (es : List PoolEvent) (s : PoolState), s.concurrency = n →
      s.active = 0 → s.running = [] → s.started = [] → s.settled = [] →
      es.foldl poolStep s =
        { concurrency := n, active := 0, queue := s.queue ++ enqJobsOf es,
          running := [], started := [], settled := [] } := by
  intro es
  induction es with
  | nil =>
    intro s h1 h2 h3 h4 h5
    obtain ⟨c, a, q, r, st, se⟩ := s
    simp only at h1 h2 h3 h4 h5
    subst h1 h2 h3 h4 h5
    simp [enqJobsOf]
  | cons e es ih =>
    intro s h1 h2 h3 h4 h5
    cases e with
    | enqueue j =>
      rw [List.foldl_cons]
      have hstep : poolStep s (PoolEvent.enqueue j) =
          { s with queue := s.queue ++ [j] } := by
        show poolNext { s with queue := s.queue ++ [j] } = _
        apply poolNext_of_full
        show s.concurrency ≤ s.active
        omega
      rw [hstep, ih { s with queue := s.queue ++ [j] } h1 h2 h3 h4 h5]
      simp [enqJobsOf]
    | settle i out =>
      rw [List.foldl_cons]
      have hstep : poolStep s (PoolEvent.settle i out) = s := by
        simp [poolStep, h3]
      rw [hstep, ih s h1 h2 h3 h4 h5]
      simp [enqJobsOf]

/-- C10: a pool constructed with a non-positive limit is accepted without
validation (`initPool` stores it as-is), but the dispatch guard
`active >= concurrency` then always holds, so over every event sequence no
factory is ever invoked, no completion token ever settles, and every
submitted job stays in the queue forever. -/
theorem pool_nonpositive_limit_never_dispatches (n : Int) (hn : n ≤ 0)
    (es : List PoolEvent) :
    (runPool n es).started = [] ∧ (runPool n es).settled = [] ∧
      (runPool n es).running = [] ∧ (runPool n es).active = 0 ∧
      (runPool n es).queue = enqJobsOf es := by
  have h := foldl_poolStep_stuck n hn es (initPool n) rfl rfl rfl rfl rfl
  unfold runPool
  rw [h]
  simp [initPool]

/-- Witness for C10 at limit 0 and a concrete trace. -/
theorem pool_nonpositive_limit_never_dispatches_witness :
    (0 : Int) ≤ 0 ∧
    ((runPool 0 [PoolEvent.enqueue { id := 0, throwsWith := none },
                 PoolEvent.enqueue { id := 1, throwsWith := some 9 },
                 PoolEvent.settle 0 (Settlement.resolved 4)]).started = [] ∧
      (runPool 0 [PoolEvent.enqueue { id := 0, throwsWith := none },
                  PoolEvent.enqueue { id := 1, throwsWith := some 9 },
                  PoolEvent.settle 0 (Settlement.resolved 4)]).settled = [] ∧
      (runPool 0 [PoolEvent.enqueue { id := 0, throwsWith := none },
                  PoolEvent.enqueue { id := 1, throwsWith := some 9 },
                  PoolEvent.settle 0 (Settlement.resolved 4)]).running = [] ∧
      (runPool 0 [PoolEvent.enqueue { id := 0, throwsWith := none },
                  PoolEvent.enqueue { id := 1, throwsWith := some 9 },
                  PoolEvent.settle 0 (Settlement.resolved 4)]).active = 0 ∧
      (runPool 0 [PoolEvent.enqueue { id := 0, throwsWith := none },
                  PoolEvent.enqueue { id := 1, throwsWith := some 9 },
                  PoolEvent.settle 0 (Settlement.resolved 4)]).queue =
        enqJobsOf [PoolEvent.enqueue { id := 0, throwsWith := none },
                   PoolEvent.enqueue { id := 1, throwsWith := some 9 },
                   PoolEvent.settle 0 (Settlement.resolved 4)]) :=
  ⟨by decide,
    pool_nonpositive_limit_never_dispatches 0 (by decide)
      [PoolEvent.enqueue { id := 0, throwsWith := none },
       PoolEvent.enqueue { id := 1, throwsWith := some 9 },
       PoolEvent.settle 0 (Settlement.resolved 4)]⟩

lemma poolNextFuel_fifo (f : Nat) : ∀ s : PoolState,
    (poolNextFuel f s).started ++ (poolNextFuel f s).queue.map Job.id =
      s.started ++ s.queue.map Job.id := by
  induction f with
  | zero => intro s; rfl
  | succ f ih =>
    intro s
    by_cases hfull : s.concurrency ≤ s.active
    · rw [poolNextFuel_of_full _ _ hfull]
    · rcases hq : s.queue with _ | ⟨j, rest⟩
      · rw [poolNextFuel_succ_nil f s hfull hq, hq]
      · rcases hj : j.throwsWith with _ | v
        · rw [poolNextFuel_succ_run f s j rest hfull hq hj]
          simp [hq]
        · rw [poolNextFuel_succ_throw f s j rest v hfull hq hj, ih]
          simp [hq]

lemma poolStep_fifo_enqueue (s : PoolState) (j : Job) :
    (poolStep s (PoolEvent.enqueue j)).started ++
        (poolStep s (PoolEvent.enqueue j)).queue.map Job.id =
      s.started ++ s.queue.map Job.id ++ [j.id] := by
  show (poolNext _).started ++ (poolNext _).queue.map Job.id = _
  rw [poolNext, poolNextFuel_fifo]
  simp

lemma poolStep_fifo_settle (s : PoolState) (i : Nat) (out : Settlement) :
    (poolStep s (PoolEvent.settle i out)).started ++
        (poolStep s (PoolEvent.settle i out)).queue.map Job.id =
      s.started ++ s.queue.map Job.id := by
  by_cases hm : i ∈ s.running
  · simp only [poolStep, if_pos hm]
    rw [poolNext, poolNextFuel_fifo]
  · simp [poolStep, hm]

lemma foldl_poolStep_fifo :
    ∀ (es : List PoolEvent) (s : PoolState),
      (es.foldl poolStep s).started ++
          (es.foldl poolStep s).queue.map Job.id =
        s.started ++ s.queue.map Job.id ++ enqIdsOf es := by
  intro es
  induction es with
  | nil => intro s; simp [enqIdsOf, enqJobsOf]
  | cons e es ih =>
    intro s
    cases e with
    | enqueue j =>
      rw [List.foldl_cons, ih, poolStep_fifo_enqueue]
      simp [enqIdsOf, enqJobsOf]
    | settle i out =>
      rw [List.foldl_cons, ih, poolStep_fifo_settle]
      simp [enqIdsOf, enqJobsOf]

lemma mkJobs_succ (m : Nat) :
    mkJobs (m + 1) = mkJobs m ++ [{ id := m, throwsWith := none }] := by
  simp [mkJobs, List.range_succ]

lemma mkJobs_length (m : Nat) : (mkJobs m).length = m := by
  simp [mkJobs]

lemma mkJobs_drop_cons (m k : Nat) (h : k < m) :
    (mkJobs m).drop k =
      { id := k, throwsWith := none } :: (mkJobs m).drop (k + 1) := by
  have hk : k < (mkJobs m).length := by rwa [mkJobs_length]
  rw [List.drop_eq_getElem_cons hk]
  simp [mkJobs]

/-- State of a pool with limit `k` after enqueueing `m` non-throwing jobs and
nothing else: the first `min m k` jobs started, the rest queue up. -/
lemma runPool_enqueue_only (k : Nat) (hk : 1 ≤ k) : ∀ m : Nat,
    runPool k ((mkJobs m).map PoolEvent.enqueue) =
      { concurrency := k, active := (min m k : Nat),
        queue := (mkJobs m).drop k, running := List.range (min m k),
        started := List.range (min m k), settled := [] } := by
  intro m
  induction m with
  | zero => simp [runPool, mkJobs, initPool]
  | succ m ih =>
    rw [mkJobs_succ, List.map_append, runPool, List.foldl_append]
    rw [show List.foldl poolStep (initPool k) ((mkJobs m).map PoolEvent.enqueue)
          = runPool k ((mkJobs m).map PoolEvent.enqueue) from rfl, ih]
    simp only [List.map_cons, List.map_nil, List.foldl_cons, List.foldl_nil]
    rcases Nat.lt_or_ge m k with hlt | hge
    · have hmin : min m k = m := Nat.min_eq_left (Nat.le_of_lt hlt)
      have hmin1 : min (m + 1) k = m + 1 := Nat.min_eq_left hlt
      have hdropm : (mkJobs m).drop k = [] :=
        List.drop_eq_nil_of_le (by rw [mkJobs_length]; omega)
      have hdrop1 : ((mkJobs m) ++
          [({ id := m, throwsWith := none } : Job)]).drop k = [] :=
        List.drop_eq_nil_of_le (by simp [mkJobs_length]; omega)
      have hcond : ¬ ((k : Int) ≤ (m : Int)) := by
        exact_mod_cast Nat.not_le.mpr hlt
      rw [hmin, hmin1, hdropm, hdrop1]
      simp only [poolStep, poolNext]
      simp [poolNextFuel, hcond, List.range_succ]
    · have hmin : min m k = k := Nat.min_eq_right hge
      have hmin1 : min (m + 1) k = k := Nat.min_eq_right (by omega)
      rw [hmin, hmin1]
      simp only [poolStep]
      rw [poolNext_of_full _ (by simp)]
      have hlen : k ≤ (mkJobs m).length := by rw [mkJobs_length]; omega
      have hdrop : ((mkJobs m) ++
          [({ id := m, throwsWith := none } : Job)]).drop k =
          (mkJobs m).drop k ++ [({ id := m, throwsWith := none } : Job)] :=
        List.drop_append_of_le_length hlen
      rw [hdrop]

/-- `_next` on a state whose queue head is a non-throwing job and whose pool
has a free slot: the job is dequeued and admitted. -/
lemma poolNext_run (s : PoolState) (j : Job) (rest : List Job)
    (h : ¬ s.concurrency ≤ s.active) (hq : s.queue = j :: rest)
    (hj : j.throwsWith = none) :
    poolNext s =
      { s with queue := rest, active := s.active + 1,
               started := s.started ++ [j.id],
               running := s.running ++ [j.id] } := by
  rw [poolNext, hq, List.length_cons]
  exact poolNextFuel_succ_run _ s j rest h hq hj

/-- `_next` on a state whose queue head is a synchronously-throwing job and
whose pool has a free slot: the job is dequeued, its token rejected with the
thrown value, and `_next` runs again. -/
lemma poolNext_throw (s : PoolState) (j : Job) (rest : List Job) (v : Nat)
    (h : ¬ s.concurrency ≤ s.active) (hq : s.queue = j :: rest)
    (hj : j.throwsWith = some v) :
    poolNext s = poolNext
      { s with queue := rest, started := s.started ++ [j.id],
               settled := s.settled ++ [(j.id, Settlement.rejected v)] } := by
  rw [poolNext, hq, List.length_cons]
  exact poolNextFuel_succ_throw _ s j rest v h hq hj

/-- C2: (a) over every event sequence, the ids of invoked factories followed
by the still-queued ids equal the submitted ids in submission order, so
admission is exactly FIFO; (b) enqueueing `m <= k` jobs into a fresh pool of
limit `k` starts all of them at once (each upon its own enqueue); (c) with
`bigM > k` submissions only the first `k` start; (d) submission `k + 1`
starts exactly when one running job settles (completes or fails). -/
theorem pool_fifo_admission (k : Nat) (hk : 1 ≤ k) (es : List PoolEvent)
    (m bigM : Nat) (hm : m ≤ k) (hbig : k < bigM) :
    ((runPool k es).started ++ (runPool k es).queue.map Job.id =
      enqIdsOf es) ∧
    (runPool k ((mkJobs m).map PoolEvent.enqueue)).started =
      List.range m ∧
    (runPool k ((mkJobs bigM).map PoolEvent.enqueue)).started =
      List.range k ∧
    (poolStep (runPool k ((mkJobs bigM).map PoolEvent.enqueue))
        (PoolEvent.settle 0 (Settlement.resolved 0))).started =
      List.range (k + 1) := by
  refine ⟨?_, ?_, ?_, ?_⟩
  · have h := foldl_poolStep_fifo es (initPool k)
    simpa [runPool, initPool] using h
  · rw [runPool_enqueue_only k hk m]
    simp [Nat.min_eq_left hm]
  · rw [runPool_enqueue_only k hk bigM]
    simp [Nat.min_eq_right (Nat.le_of_lt hbig)]
  · rw [runPool_enqueue_only k hk bigM]
    rw [Nat.min_eq_right (Nat.le_of_lt hbig)]
    simp only [poolStep]
    rw [if_pos (show 0 ∈ List.range k from List.mem_range.mpr (by omega))]
    rw [poolNext_run _ { id := k, throwsWith := none }
      ((mkJobs bigM).drop (k + 1))
      (by show ¬ ((k : Int) ≤ (k : Int) - 1); omega)
      (by show (mkJobs bigM).drop k = _; exact mkJobs_drop_cons bigM k hbig)
      rfl]
    simp [List.range_succ]

/-- Witness for C2 at limit 2, a concrete trace, 1 immediate job, and 3
jobs saturating the pool. -/
theorem pool_fifo_admission_witness :
    1 ≤ 2 ∧ 1 ≤ 2 ∧ 2 < 3 ∧
    (((runPool 2 [PoolEvent.enqueue { id := 10, throwsWith := none },
                  PoolEvent.enqueue { id := 11, throwsWith := some 3 }]).started
          ++ (runPool 2 [PoolEvent.enqueue { id := 10, throwsWith := none },
                  PoolEvent.enqueue { id := 11, throwsWith := some 3 }]).queue.map
              Job.id =
        enqIdsOf [PoolEvent.enqueue { id := 10, throwsWith := none },
                  PoolEvent.enqueue { id := 11, throwsWith := some 3 }]) ∧
      (runPool 2 ((mkJobs 1).map PoolEvent.enqueue)).started =
        List.range 1 ∧
      (runPool 2 ((mkJobs 3).map PoolEvent.enqueue)).started =
        List.range 2 ∧
      (poolStep (runPool 2 ((mkJobs 3).map PoolEvent.enqueue))
          (PoolEvent.settle 0 (Settlement.resolved 0))).started =
        List.range (2 + 1)) :=
  ⟨by decide, by decide, by decide,
    pool_fifo_admission 2 (by decide)
      [PoolEvent.enqueue { id := 10, throwsWith := none },
       PoolEvent.enqueue { id := 11, throwsWith := some 3 }]
      1 3 (by decide) (by decide)⟩

/-- C9: when the head of the queue is a job whose factory throws `v`
synchronously and a slot is free, `_next` rejects exactly that submission's
token with the thrown value, leaves the active count net-unchanged by the
failure, and immediately dispatches again, admitting the next queued job;
running siblings and the rest of the queue are untouched. -/
theorem pool_sync_throw_isolated (s : PoolState) (i v j : Nat)
    (rest : List Job)
    (hq : s.queue = { id := i, throwsWith := some v } ::
      { id := j, throwsWith := none } :: rest)
    (ha : s.active < s.concurrency) :
    poolNext s =
      { s with queue := rest, active := s.active + 1,
               started := s.started ++ [i, j],
               running := s.running ++ [j],
               settled := s.settled ++ [(i, Settlement.rejected v)] } := by
  obtain ⟨c, a, q, r, st, se⟩ := s
  simp only at hq ha ⊢
  subst hq
  rw [poolNext_throw _ { id := i, throwsWith := some v }
    ({ id := j, throwsWith := none } :: rest) v (not_le.mpr ha) rfl rfl]
  rw [poolNext_run _ { id := j, throwsWith := none } rest
    (not_le.mpr ha) rfl rfl]
  simp

/-- Witness for C9 at a concrete pool state. -/
theorem pool_sync_throw_isolated_witness :
    ({ concurrency := 2, active := 0,
       queue := [{ id := 7, throwsWith := some 3 },
                 { id := 8, throwsWith := none },
                 { id := 9, throwsWith := none }],
       running := [], started := [], settled := [] } : PoolState).queue =
      { id := 7, throwsWith := some 3 } ::
        { id := 8, throwsWith := none } :: [{ id := 9, throwsWith := none }] ∧
    ({ concurrency := 2, active := 0,
       queue := [{ id := 7, throwsWith := some 3 },
                 { id := 8, throwsWith := none },
                 { id := 9, throwsWith := none }],
       running := [], started := [], settled := [] } : PoolState).active <
      ({ concurrency := 2, active := 0,
         queue := [{ id := 7, throwsWith := some 3 },
                   { id := 8, throwsWith := none },
                   { id := 9, throwsWith := none }],
         running := [], started := [], settled := [] } : PoolState).concurrency ∧
    poolNext { concurrency := 2, active := 0,
               queue := [{ id := 7, throwsWith := some 3 },
                         { id := 8, throwsWith := none },
                         { id := 9, throwsWith := none }],
               running := [], started := [], settled := [] } =
      { concurrency := 2, active := 1,
        queue := [{ id := 9, throwsWith := none }],
        running := [8], started := [7, 8],
        settled := [(7, Settlement.rejected 3)] } :=
  ⟨by decide, by decide,
    pool_sync_throw_isolated
      { concurrency := 2, active := 0,
        queue := [{ id := 7, throwsWith := some 3 },
                  { id := 8, throwsWith := none },
                  { id := 9, throwsWith := none }],
        running := [], started := [], settled := [] }
      7 3 8 [{ id := 9, throwsWith := none }] rfl (by decide)⟩

/- ------------------- parseHeaders lemmas ------------------- -/

lemma splitSepCS_ne_nil : ∀ l : List Char, splitSepCS l ≠ [] := by
  intro l
  induction l using splitSepCS.induct with
  | case1 => simp [splitSepCS]
  | case2 c => simp [splitSepCS]
  | case3 c d rest h ih => simp [splitSepCS, h]
  | case4 c d rest h heq ih => simp [splitSepCS, h, heq]
  | case5 c d rest h p ps heq ih => simp [splitSepCS, h, heq]

lemma joinSep_splitSepCS : ∀ l : List Char, joinSep (splitSepCS l) = l := by
  intro l
  induction l using splitSepCS.induct with
  | case1 => simp [splitSepCS, joinSep]
  | case2 c => simp [splitSepCS, joinSep]
  | case3 c d rest h ih =>
    obtain ⟨hc, hd⟩ := h
    subst hc hd
    rcases hps : splitSepCS rest with _ | ⟨p, ps⟩
    · exact absurd hps (splitSepCS_ne_nil rest)
    · rw [hps] at ih
      simp only [splitSepCS, if_pos (by exact ⟨rfl, rfl⟩ :
        (':' : Char) = ':' ∧ (' ' : Char) = ' ')]
      rw [hps]
      simp [joinSep, ih]
  | case4 c d rest h heq ih => exact absurd heq (splitSepCS_ne_nil _)
  | case5 c d rest h p ps heq ih =>
    rw [heq] at ih
    simp only [splitSepCS, if_neg h, heq]
    cases ps with
    | nil => simp only [joinSep] at ih ⊢; rw [ih]
    | cons q qs =>
      simp only [joinSep] at ih ⊢
      rw [List.cons_append, ih]

lemma splitSepCS_eq_first : ∀ l : List Char,
    (splitSepCS l).headD [] = (splitFirstSep l).1 ∧
      joinSep (splitSepCS l).tail = (splitFirstSep l).2.getD [] := by
  intro l
  induction l using splitSepCS.induct with
  | case1 => simp [splitSepCS, splitFirstSep, joinSep]
  | case2 c => simp [splitSepCS, splitFirstSep, joinSep]
  | case3 c d rest h ih =>
    obtain ⟨hc, hd⟩ := h
    subst hc hd
    constructor
    · simp [splitSepCS, splitFirstSep]
    · simp only [splitSepCS, splitFirstSep, if_pos (by exact ⟨rfl, rfl⟩ :
        (':' : Char) = ':' ∧ (' ' : Char) = ' ')]
      simp [joinSep_splitSepCS rest]
  | case4 c d rest h heq ih => exact absurd heq (splitSepCS_ne_nil _)
  | case5 c d rest h p ps heq ih =>
    rw [heq] at ih
    simp only [splitSepCS, if_neg h, heq, splitFirstSep]
    constructor
    · simp only [List.headD_cons]
      simp only [List.headD_cons] at ih
      rw [ih.1]
    · simpa using ih.2

lemma parseHeaders_eq_amended (s : String) :
    parseHeaders s = parseHeadersAmended s := by
  unfold parseHeaders parseHeadersAmended
  by_cases hs : s = ""
  · simp [hs]
  · rw [if_neg hs, if_neg hs]
    apply List.foldl_ext
    intro m line hline
    dsimp only
    rw [(splitSepCS_eq_first line).1, (splitSepCS_eq_first line).2]

/-- C4 (amended): `parseHeaders` first trims surrounding whitespace, splits
the block on maximal runs of CR/LF, splits each line at the first occurrence
of the `": "` separator into name and value (later occurrences rejoined into
the value intact, empty value when no separator), lower-cases the names with
last-write-wins insertion, and yields an empty mapping for an empty block;
in particular the claimed example parses as stated. -/
theorem parse_headers_characterization :
    (∀ s : String, parseHeaders s = parseHeadersAmended s) ∧
    parseHeaders "Content-Type: application/json\r\nX-Id: a: b\r\n" =
      [("content-type", "application/json"), ("x-id", "a: b")] ∧
    parseHeaders "" = [] :=
  ⟨parseHeaders_eq_amended, by decide, rfl⟩

/-- C4 counterexample: the claim's description (split on newlines, split each
line at the first `": "`, lower-case — with no trimming step) disagrees with
`parseHeaders` on a block with leading whitespace: the code trims the name to
`"x"`, the described algorithm keeps `" x"`. -/
theorem parse_headers_literal_counterexample :
    parseHeaders " X: y" = [("x", "y")] ∧
    parseHeadersLiteral " X: y" = [(" x", "y")] ∧
    parseHeaders " X: y" ≠ parseHeadersLiteral " X: y" :=
  ⟨by decide, by decide, by decide⟩

/- ------------------- body serialization (C5) ------------------- -/

/-- C5 counterexample: with the content type stored under the key
`"CONTENT-TYPE"`, the claimed case-insensitive condition holds, yet the
source (which probes only the exact spellings `Content-Type` and
`content-type`) sends the object body unserialized. -/
theorem body_serialization_counterexample :
    sentPayload [("CONTENT-TYPE", "application/json")] (JsBody.objB 0) =
      Payload.raw (JsBody.objB 0) ∧
    specContentTypeJson [("CONTENT-TYPE", "application/json")]
      (JsBody.objB 0) = true :=
  ⟨by decide, by decide⟩

/-- C5 (amended): the body is serialized to JSON if and only if it is a
non-null object and the value found under the exact key `Content-Type` — or,
when that key is absent or empty, the exact key `content-type` — is non-empty
and contains `application/json` case-insensitively; other spellings of the
key are not consulted. -/
theorem body_serialization_amended (hs : List (String × String))
    (b : JsBody) :
    sentPayload hs b = Payload.jsonOf b ↔
      (isObjB b = true ∧ ∃ v : String,
        ((jsLookup hs "Content-Type" = some v ∧ v ≠ "") ∨
          ((jsLookup hs "Content-Type" = none ∨
              jsLookup hs "Content-Type" = some "") ∧
            jsLookup hs "content-type" = some v ∧ v ≠ "")) ∧
        hasInfixCS (asciiLowerS v).data "application/json".data = true) := by
  have h0 : hasInfixCS (asciiLowerS "").data "application/json".data =
      false := by decide
  by_cases hb : isObjB b
  · have hiff : sentPayload hs b = Payload.jsonOf b ↔
        hasInfixCS (contentTypeOf hs).data "application/json".data = true := by
      unfold sentPayload
      rcases hX : hasInfixCS (contentTypeOf hs).data "application/json".data
      · simp [hb, hX]
      · simp [hb, hX]
    rw [hiff]
    simp only [hb, true_and]
    rcases hA : jsLookup hs "Content-Type" with _ | u
    · rcases hB : jsLookup hs "content-type" with _ | w
      · rw [show contentTypeOf hs = asciiLowerS "" from by
          simp [contentTypeOf, hA, hB, jsOrStr]]
        rw [h0]
        simp only [Bool.false_eq_true, false_iff]
        rintro ⟨v, hv | hv, hinf⟩
        · exact Option.noConfusion hv.1
        · exact Option.noConfusion hv.2.1
      · by_cases hw : w = ""
        · subst hw
          rw [show contentTypeOf hs = asciiLowerS "" from by
            simp [contentTypeOf, hA, hB, jsOrStr]]
          rw [h0]
          simp only [Bool.false_eq_true, false_iff]
          rintro ⟨v, hv | hv, hinf⟩
          · exact Option.noConfusion hv.1
          · obtain ⟨hAor, hBv, hne⟩ := hv
            injection hBv with hv'
            exact hne hv'.symm
        · rw [show contentTypeOf hs = asciiLowerS w from by
            simp [contentTypeOf, hA, hB, jsOrStr, hw]]
          constructor
          · intro hinf
            exact ⟨w, Or.inr ⟨Or.inl rfl, rfl, hw⟩, hinf⟩
          · rintro ⟨v, hv | hv, hinf⟩
            · exact Option.noConfusion hv.1
            · obtain ⟨hAor, hBv, hne⟩ := hv
              injection hBv with hv'
              rwa [← hv'] at hinf
    · by_cases hu : u = ""
      · subst hu
        rcases hB : jsLookup hs "content-type" with _ | w
        · rw [show contentTypeOf hs = asciiLowerS "" from by
            simp [contentTypeOf, hA, hB, jsOrStr]]
          rw [h0]
          simp only [Bool.false_eq_true, false_iff]
          rintro ⟨v, hv | hv, hinf⟩
          · obtain ⟨hAv, hne⟩ := hv
            injection hAv with hv'
            exact hne hv'.symm
          · exact Option.noConfusion hv.2.1
        · by_cases hw : w = ""
          · subst hw
            rw [show contentTypeOf hs = asciiLowerS "" from by
              simp [contentTypeOf, hA, hB, jsOrStr]]
            rw [h0]
            simp only [Bool.false_eq_true, false_iff]
            rintro ⟨v, hv | hv, hinf⟩
            · obtain ⟨hAv, hne⟩ := hv
              injection hAv with hv'
              exact hne hv'.symm
            · obtain ⟨hAor, hBv, hne⟩ := hv
              injection hBv with hv'
              exact hne hv'.symm
          · rw [show contentTypeOf hs = asciiLowerS w from by
              simp [contentTypeOf, hA, hB, jsOrStr, hw]]
            constructor
            · intro hinf
              exact ⟨w, Or.inr ⟨Or.inr rfl, rfl, hw⟩, hinf⟩
            · rintro ⟨v, hv | hv, hinf⟩
              · obtain ⟨hAv, hne⟩ := hv
                injection hAv with hv'
                exact absurd hv'.symm hne
              · obtain ⟨hAor, hBv, hne⟩ := hv
                injection hBv with hv'
                rwa [← hv'] at hinf
      · rw [show contentTypeOf hs = asciiLowerS u from by
          simp [contentTypeOf, hA, jsOrStr, hu]]
        constructor
        · intro hinf
          exact ⟨u, Or.inl ⟨rfl, hu⟩, hinf⟩
        · rintro ⟨v, hv | hv, hinf⟩
          · obtain ⟨hAv, hne⟩ := hv
            injection hAv with hv'
            rwa [← hv'] at hinf
          · obtain ⟨hAor, hBv, hne⟩ := hv
            rcases hAor with h' | h'
            · exact Option.noConfusion h'
            · injection h' with h''
              exact absurd h'' hu
  · have hb' : isObjB b = false := by
      rcases hfb : isObjB b
      · rfl
      · exact absurd hfb hb
    unfold sentPayload
    rw [hb']
    simp

/- ------------------- xhrRequest lemmas ------------------- -/

lemma reqStep_loading_outcome (o : ReqOptions)
    (jp : List Char → Option (List Char)) (s : ReqState) (c : List Char) :
    (reqStep o jp s (XhrEvent.loading c)).outcome = s.outcome := by
  rcases ho : o.onChunk with _ | cb
  · simp [reqStep, ho]
  · simp only [reqStep, ho]
    cases chunkCall cb (c.drop s.lastIndex) <;> rfl

lemma foldl_loading_outcome (o : ReqOptions)
    (jp : List Char → Option (List Char)) :
    ∀ (ls : List (List Char)) (s : ReqState),
      ((ls.map XhrEvent.loading).foldl (reqStep o jp) s).outcome =
        s.outcome := by
  intro ls
  induction ls with
  | nil => intro s; rfl
  | cons l ls ih =>
    intro s
    rw [List.map_cons, List.foldl_cons, ih, reqStep_loading_outcome]

lemma settleOutcome_of_pending (s : ReqState) (o : Outcome)
    (h : s.outcome = Outcome.pending) :
    settleOutcome s o = { s with outcome := o } := by
  simp [settleOutcome, h]

/-- C3: a request whose transport goes through any number of partial-data
notifications and then reaches the terminal done state resolves with a
`ResponseEnvelope` (status, lower-cased parsed headers, decoded body,
transport handle) when `200 <= status < 300`, and rejects with a
`FailureEnvelope` carrying exactly that status, the status text, the raw
undecoded body and the parsed headers otherwise. -/
theorem status_branching (o : ReqOptions)
    (jp : List Char → Option (List Char)) (ls : List (List Char)) (st : Int)
    (stx : String) (txt rval : List Char) (hdrs : String) :
    (runXhr o jp (ls.map XhrEvent.loading ++
        [XhrEvent.done st stx txt rval hdrs])).outcome =
      if 200 ≤ st ∧ st < 300 then
        Outcome.resolvedEnv
          { status := st, headers := parseHeaders hdrs,
            body := computeBody jp o.responseType
              (xhrRespType o.responseType) txt rval,
            xhr := () }
      else
        Outcome.rejectedEnv
          { status := st, statusText := stx, body := txt,
            headers := parseHeaders hdrs } := by
  unfold runXhr
  rw [List.foldl_append, List.foldl_cons, List.foldl_nil]
  have hpend :
      ((ls.map XhrEvent.loading).foldl (reqStep o jp) initReq).outcome =
        Outcome.pending := foldl_loading_outcome o jp ls initReq
  show (settleOutcome _ _).outcome = _
  rw [settleOutcome_of_pending _ _ hpend]

/-- C8: after any number of partial-data notifications, a network failure, a
timeout expiry, and an explicit abort each reject the completion token with
a distinct descriptive plain error naming which one occurred, and none of
these rejections is a `FailureEnvelope`-shaped value, so the two error
channels are discriminable by shape. -/
theorem transport_failures_distinct (o : ReqOptions)
    (jp : List Char → Option (List Char)) (ls : List (List Char)) :
    (runXhr o jp (ls.map XhrEvent.loading ++ [XhrEvent.netError])).outcome =
      Outcome.rejectedErr "Network error" ∧
    (runXhr o jp (ls.map XhrEvent.loading ++ [XhrEvent.timedOut])).outcome =
      Outcome.rejectedErr "Timeout" ∧
    (runXhr o jp (ls.map XhrEvent.loading ++ [XhrEvent.aborted])).outcome =
      Outcome.rejectedErr "Aborted" ∧
    (Outcome.rejectedErr "Network error" ≠ Outcome.rejectedErr "Timeout" ∧
      Outcome.rejectedErr "Network error" ≠ Outcome.rejectedErr "Aborted" ∧
      Outcome.rejectedErr "Timeout" ≠ Outcome.rejectedErr "Aborted") ∧
    ∀ env : FailureEnvelope,
      Outcome.rejectedErr "Network error" ≠ Outcome.rejectedEnv env ∧
      Outcome.rejectedErr "Timeout" ≠ Outcome.rejectedEnv env ∧
      Outcome.rejectedErr "Aborted" ≠ Outcome.rejectedEnv env := by
  have hpend :
      ((ls.map XhrEvent.loading).foldl (reqStep o jp) initReq).outcome =
        Outcome.pending := foldl_loading_outcome o jp ls initReq
  refine ⟨?_, ?_, ?_, ⟨by decide, by decide, by decide⟩, ?_⟩
  · unfold runXhr
    rw [List.foldl_append, List.foldl_cons, List.foldl_nil]
    show (settleOutcome _ _).outcome = _
    rw [settleOutcome_of_pending _ _ hpend]
  · unfold runXhr
    rw [List.foldl_append, List.foldl_cons, List.foldl_nil]
    show (settleOutcome _ _).outcome = _
    rw [settleOutcome_of_pending _ _ hpend]
  · unfold runXhr
    rw [List.foldl_append, List.foldl_cons, List.foldl_nil]
    show (settleOutcome _ _).outcome = _
    rw [settleOutcome_of_pending _ _ hpend]
  · intro env
    refine ⟨?_, ?_, ?_⟩ <;> intro h <;> cases h

lemma reqStep_onChunk_ext (o : ReqOptions) (f g : List Char → Bool)
    (jp : List Char → Option (List Char)) (s : ReqState) (e : XhrEvent) :
    reqStep { o with onChunk := some f } jp s e =
      reqStep { o with onChunk := some g } jp s e := by
  cases e with
  | loading cum =>
    simp only [reqStep]
    cases chunkCall f (cum.drop s.lastIndex) <;>
      cases chunkCall g (cum.drop s.lastIndex) <;> rfl
  | progressEvt => rfl
  | done st stx txt rval hdrs => rfl
  | netError => rfl
  | timedOut => rfl
  | aborted => rfl

/-- C7: the handler wraps the chunk callback in `try ... catch (e) {}`, so a
callback that throws behaves exactly like one that returns: the machine
state after any event trace — the completion token's outcome, the streaming
cursor, and every subsequent chunk delivery — is identical for any two throw
behaviours of the registered callback. -/
theorem chunk_throw_swallowed (o : ReqOptions) (f g : List Char → Bool)
    (jp : List Char → Option (List Char)) (evs : List XhrEvent) :
    runXhr { o with onChunk := some f } jp evs =
      runXhr { o with onChunk := some g } jp evs := by
  unfold runXhr
  exact List.foldl_ext _ _ initReq
    (fun s e _ => reqStep_onChunk_ext o f g jp s e)

lemma reqStep_done_deliveries (o : ReqOptions)
    (jp : List Char → Option (List Char)) (s : ReqState) (st : Int)
    (stx : String) (txt rval : List Char) (hdrs : String) :
    (reqStep o jp s (XhrEvent.done st stx txt rval hdrs)).deliveries =
      s.deliveries := by
  simp only [reqStep, settleOutcome]
  split <;> rfl

lemma foldl_loading_deliveries (o : ReqOptions) (cb : List Char → Bool)
    (jp : List Char → Option (List Char)) :
    ∀ (ts : List (List Char)) (s : ReqState),
      (ts.map XhrEvent.loading).foldl
          (reqStep { o with onChunk := some cb } jp) s =
        { lastIndex := ts.foldl (fun _ t => t.length) s.lastIndex,
          outcome := s.outcome,
          deliveries := s.deliveries ++ incrementsFrom s.lastIndex ts } := by
  intro ts
  induction ts with
  | nil =>
    intro s
    simp [incrementsFrom]
  | cons t ts ih =>
    intro s
    rw [List.map_cons, List.foldl_cons]
    have hstep : reqStep { o with onChunk := some cb } jp s
        (XhrEvent.loading t) =
        { lastIndex := t.length, outcome := s.outcome,
          deliveries := s.deliveries ++ [t.drop s.lastIndex] } := by
      simp only [reqStep]
      cases chunkCall cb (t.drop s.lastIndex) <;> rfl
    rw [hstep, ih]
    simp [incrementsFrom]

lemma incrementsFrom_length :
    ∀ (ts : List (List Char)) (n : Nat),
      (incrementsFrom n ts).length = ts.length := by
  intro ts
  induction ts with
  | nil => intro n; rfl
  | cons t ts ih => intro n; simp [incrementsFrom, ih]

lemma startsWithCS_append (a z : List Char) :
    startsWithCS (a ++ z) a = true := by
  induction a with
  | nil =>
    cases z with
    | nil => rfl
    | cons c cs => rfl
  | cons x xs ih => simp [startsWithCS, ih]

lemma startsWithCS_decomp :
    ∀ (a b : List Char), startsWithCS b a = true →
      b = a ++ b.drop a.length := by
  intro a
  induction a with
  | nil => intro b h; simp
  | cons x xs ih =>
    intro b h
    cases b with
    | nil => simp [startsWithCS] at h
    | cons y ys =>
      simp only [startsWithCS, Bool.and_eq_true, decide_eq_true_eq] at h
      obtain ⟨hy, hrest⟩ := h
      subst hy
      have := ih ys hrest
      simp only [List.length_cons, List.drop_succ_cons, List.cons_append]
      exact congrArg _ this

lemma startsWithCS_trans (a b c : List Char)
    (hab : startsWithCS b a = true) (hbc : startsWithCS c b = true) :
    startsWithCS c a = true := by
  have h1 := startsWithCS_decomp a b hab
  have h2 := startsWithCS_decomp b c hbc
  rw [h2, h1, List.append_assoc]
  exact startsWithCS_append a _

lemma startsWithCS_length (a b : List Char)
    (h : startsWithCS b a = true) : a.length ≤ b.length := by
  have hd := startsWithCS_decomp a b h
  have := congrArg List.length hd
  simp only [List.length_append] at this
  omega

lemma pfx_lastCum :
    ∀ (ts : List (List Char)) (t : List Char),
      pfxChain (t :: ts) = true →
        startsWithCS (lastCum (t :: ts)) t = true := by
  intro ts
  induction ts with
  | nil =>
    intro t h
    have := startsWithCS_append t []
    simpa using this
  | cons t2 ts ih =>
    intro t h
    simp only [pfxChain, Bool.and_eq_true] at h
    have h2 := ih t2 (by
      cases ts with
      | nil => rfl
      | cons t3 ts => simpa [pfxChain] using h.2)
    show startsWithCS (lastCum (t2 :: ts)) t = true
    exact startsWithCS_trans t t2 (lastCum (t2 :: ts)) h.1 h2

lemma incrementsFrom_join :
    ∀ (ts : List (List Char)) (t : List Char) (n : Nat), n ≤ t.length →
      pfxChain (t :: ts) = true →
      (incrementsFrom n (t :: ts)).flatten = (lastCum (t :: ts)).drop n := by
  intro ts
  induction ts with
  | nil =>
    intro t n hn h
    simp [incrementsFrom, lastCum]
  | cons t2 ts ih =>
    intro t n hn h
    simp only [pfxChain, Bool.and_eq_true] at h
    obtain ⟨h12, hch⟩ := h
    have hlen : t.length ≤ t2.length := startsWithCS_length t t2 h12
    have hIH := ih t2 t.length hlen hch
    show (t.drop n :: incrementsFrom t.length (t2 :: ts)).flatten =
      (lastCum (t2 :: ts)).drop n
    rw [List.flatten_cons, hIH]
    have hL := pfx_lastCum (t2 :: ts) t
      (by simp [pfxChain, h12, hch])
    have hdec := startsWithCS_decomp t (lastCum (t2 :: ts)) hL
    conv_rhs => rw [hdec]
    conv_lhs => rw [hdec]
    rw [List.drop_append_of_le_length hn]
    have hdl : (t ++ (lastCum (t2 :: ts)).drop t.length).drop t.length =
        (lastCum (t2 :: ts)).drop t.length := by
      rw [List.drop_append_of_le_length (Nat.le_refl _)]
      simp
    rw [hdl]

/-- C6 (amended): with a registered chunk callback and partial-data
notifications whose cumulative texts form a prefix chain, the callback is
invoked exactly once per notification with exactly the newly-arrived
increment past the last notified offset, and the concatenation of the
delivered increments equals the cumulative text of the last notification —
a prefix of, but not in general equal to, the final raw body, since the
terminal handler delivers no further chunk. -/
theorem chunk_increments_amended (o : ReqOptions) (cb : List Char → Bool)
    (jp : List Char → Option (List Char)) (ts : List (List Char)) (st : Int)
    (stx : String) (txt rval : List Char) (hdrs : String)
    (hchain : pfxChain ts = true) :
    (runXhr { o with onChunk := some cb } jp (ts.map XhrEvent.loading ++
        [XhrEvent.done st stx txt rval hdrs])).deliveries =
      incrementsFrom 0 ts ∧
    (incrementsFrom 0 ts).length = ts.length ∧
    (incrementsFrom 0 ts).flatten = lastCum ts := by
  refine ⟨?_, incrementsFrom_length ts 0, ?_⟩
  · unfold runXhr
    rw [List.foldl_append, List.foldl_cons, List.foldl_nil,
      reqStep_done_deliveries, foldl_loading_deliveries]
    simp [initReq]
  · cases ts with
    | nil => rfl
    | cons t ts =>
      have h := incrementsFrom_join ts t 0 (Nat.zero_le _) hchain
      simpa using h

/-- Witness for C6 (amended) at a concrete notification sequence. -/
theorem chunk_increments_amended_witness :
    pfxChain [['a'], ['a', 'b']] = true ∧
    ((runXhr { ({} : ReqOptions) with onChunk := some (fun _ => false) }
        (fun _ => none)
        ([['a'], ['a', 'b']].map XhrEvent.loading ++
          [XhrEvent.done 200 "OK" ['a', 'b', 'c'] [] ""])).deliveries =
      incrementsFrom 0 [['a'], ['a', 'b']] ∧
    (incrementsFrom 0 [['a'], ['a', 'b']]).length =
      ([['a'], ['a', 'b']] : List (List Char)).length ∧
    (incrementsFrom 0 [['a'], ['a', 'b']]).flatten =
      lastCum [['a'], ['a', 'b']]) :=
  ⟨by decide,
    chunk_increments_amended {} (fun _ => false) (fun _ => none)
      [['a'], ['a', 'b']] 200 "OK" ['a', 'b', 'c'] [] "" (by decide)⟩

/-- C6 counterexample: one partial-data notification carrying `"a"` (a
prefix chain), then a terminal body `"ab"`: the single delivered increment
concatenates to `"a"`, not to the final raw body `"ab"`, because no chunk is
delivered at the terminal readyState. -/
theorem chunk_concat_counterexample :
    pfxChain [['a']] = true ∧
    (runXhr ({ onChunk := some (fun _ => false) } : ReqOptions)
        (fun _ => none)
        [XhrEvent.loading ['a'],
         XhrEvent.done 200 "OK" ['a', 'b'] [] ""]).deliveries.flatten =
      ['a'] ∧
    (['a'] : List Char) ≠ ['a', 'b'] :=
  ⟨by decide, by decide, by decide⟩
